import Mathlib

/-!
Shallow embedding of the SlotStudio engine (`src/lib/engine/SlotEngine.ts`).

Conventions of the embedding:
* JavaScript 32-bit bitwise arithmetic is modelled on `Nat`, keeping the
  unsigned 32-bit pattern and taking `% 2^32` where the source truncates;
  the arithmetic right shift `>>` is modelled by `sar17` (sign extension).
* The float values produced by the generator are modelled as exact
  rationals `x / 2^32`; for the weight tables appearing here these
  float64 computations are exact, so no rounding is modelled.
* The mutable engine object becomes a `SlotEngine` structure threaded
  through explicit state-passing functions; the unbounded `while` loop of
  the cascade resolver takes a fuel parameter and returns `none` when the
  fuel is exhausted.
* Bonus hooks are opaque observers: the engine stores bonus identifiers
  and `spin` additionally returns the ordered list of hook invocations,
  each recording the value of the `spinning` flag at the moment the hook
  is called, plus the list of win lists consumed by each cascade pass.
-/

/-- Symbol identifiers, the keys of `DEFAULT_WEIGHTS` in the source. -/
inductive SymbolId where
  | sym_bear | sym_wolf | sym_buffalo | sym_elk
  | sym_card_9 | sym_card_10 | sym_card_a | sym_card_j
  | sym_card_k | sym_card_q | sym_scatter_free_spins | sym_wild
deriving DecidableEq, Repr

/-- A cell holds `sym: SymbolId | null`. -/
abbrev Cell : Type := Option SymbolId

/-- Column-major grid: outer index is the column, inner the row. -/
abbrev Grid : Type := List (List Cell)

/-- Grid dimensions. -/
structure GridSize where
  cols : Nat
  rows : Nat
deriving DecidableEq, Repr

/-- The two spin styles. -/
inductive SpinStyle where
  | regular
  | cascading
deriving DecidableEq, Repr

/-- Engine configuration; `symbolWeights` keeps the declaration order of the
object literal, as `Object.entries` iteration does in the source. -/
structure EngineConfig where
  grid : GridSize
  spinStyle : SpinStyle
  spinSpeed : Rat
  fallSpeed : Rat
  symbolWeights : List (SymbolId × Nat)
  rngSeed : Nat
deriving DecidableEq, Repr

/-- A winning run: positions and payout. -/
structure Pos where
  c : Nat
  r : Nat
deriving DecidableEq, Repr

/-- A win record `{cells, payout}`. -/
structure Win where
  cells : List Pos
  payout : Nat
deriving DecidableEq, Repr

/-- The engine state: config, grid, RNG state (32-bit pattern), flags and
registered bonuses (opaque identifiers). -/
structure SlotEngine where
  config : EngineConfig
  grid : Grid
  rng : Nat
  spinning : Bool
  cascadesInChain : Nat
  bonuses : List Nat
deriving DecidableEq, Repr

/-- `DEFAULT_WEIGHTS` of the source, in declaration order. -/
def DEFAULT_WEIGHTS : List (SymbolId × Nat) :=
  [(.sym_bear, 5), (.sym_wolf, 5), (.sym_buffalo, 3), (.sym_elk, 5),
   (.sym_card_9, 10), (.sym_card_10, 10), (.sym_card_a, 8), (.sym_card_j, 9),
   (.sym_card_k, 8), (.sym_card_q, 9), (.sym_scatter_free_spins, 1), (.sym_wild, 2)]

/-- Arithmetic right shift by 17 of a 32-bit pattern (JavaScript `x >> 17`
on an int32, here on the unsigned pattern). -/
def sar17 (x : Nat) : Nat :=
  if x < 2147483648 then x >>> 17 else (x >>> 17) + 4294934528

/-- One step of `seededRng`: `x ^= x << 13, x ^= x >> 17, x ^= x << 5`,
on 32-bit patterns. -/
def rngNext (x : Nat) : Nat :=
  let x1 := x ^^^ ((x <<< 13) % 4294967296)
  let x2 := x1 ^^^ sar17 x1
  x2 ^^^ ((x2 <<< 5) % 4294967296)

/-- Initial state of `seededRng`: `let x = seed || 123456789`. -/
def rngInit (seed : Nat) : Nat :=
  if seed = 0 then 123456789 else seed

/-- One call of the closure returned by `seededRng`: advance the state and
return `(x >>> 0) / 4294967296` as an exact rational. -/
def rngStep (x : Nat) : Rat × Nat :=
  let x1 := rngNext x
  ((x1 : Rat) / 4294967296, x1)

/-- The subtraction loop of `pickRandomSymbol`: `if ((t -= w) <= 0) return
sym`, with the given fallback when the loop falls through. -/
def pickLoop (t : Rat) : List (SymbolId × Nat) → SymbolId → SymbolId
  | [], fb => fb
  | (s, w) :: rest, fb =>
    if t - (w : Rat) ≤ 0 then s else pickLoop (t - (w : Rat)) rest fb

/-- The same loop with every quantity multiplied through by `2^32`
(exactly: the running threshold starts as `x * total` instead of
`(x / 2^32) * total`, and each weight is scaled likewise), so that it
computes in integers; `pickLoop_eq_pickLoopN` proves it pointwise equal to
the rational loop of the source. -/
def pickLoopN (t : Int) : List (SymbolId × Nat) → SymbolId → SymbolId
  | [], fb => fb
  | (s, w) :: rest, fb =>
    if t - (w : Int) * 4294967296 ≤ 0 then s
    else pickLoopN (t - (w : Int) * 4294967296) rest fb

/-- `pickRandomSymbol`: weighted pick consuming one RNG draw; the source
threshold is `rng() * total`, modelled scaled by `2^32` (see `pickLoopN`).
The fallback is `entries[entries.length - 1][0]`; the junk default
`sym_bear` stands in for the exception the source would raise on an empty
weight table, which the theorems below exclude by hypothesis. -/
def pickRandomSymbol (weights : List (SymbolId × Nat)) (x : Nat) :
    SymbolId × Nat :=
  let total : Nat := (weights.map Prod.snd).sum
  let x1 := rngNext x
  (pickLoopN ((x1 : Int) * (total : Int)) weights
    ((weights.getLast?).elim SymbolId.sym_bear Prod.fst), x1)

/-- `makeEmptyGrid`: a cols × rows matrix of `{sym: null}`. -/
def makeEmptyGrid (size : GridSize) : Grid :=
  List.replicate size.cols (List.replicate size.rows (none : Cell))

/-- The inner row loop of `fillAllRandom` on one column: every cell is
overwritten with a fresh pick. -/
def fillAllCol (w : List (SymbolId × Nat)) : Nat → List Cell → List Cell × Nat
  | x, [] => ([], x)
  | x, _ :: rest =>
    let p := pickRandomSymbol w x
    let q := fillAllCol w p.2 rest
    (some p.1 :: q.1, q.2)

/-- `fillAllRandom` on the whole grid (column loop outside, row loop
inside, as in the source). -/
def fillAllGrid (w : List (SymbolId × Nat)) : Nat → Grid → Grid × Nat
  | x, [] => ([], x)
  | x, col :: cols =>
    let p := fillAllCol w x col
    let q := fillAllGrid w p.2 cols
    (p.1 :: q.1, q.2)

/-- The inner row loop of `fillTop` on one column: only `null` cells are
filled. -/
def fillTopCol (w : List (SymbolId × Nat)) : Nat → List Cell → List Cell × Nat
  | x, [] => ([], x)
  | x, some s :: rest =>
    let q := fillTopCol w x rest
    (some s :: q.1, q.2)
  | x, none :: rest =>
    let p := pickRandomSymbol w x
    let q := fillTopCol w p.2 rest
    (some p.1 :: q.1, q.2)

/-- `fillTop` on the whole grid. -/
def fillTopGrid (w : List (SymbolId × Nat)) : Nat → Grid → Grid × Nat
  | x, [] => ([], x)
  | x, col :: cols =>
    let p := fillTopCol w x col
    let q := fillTopGrid w p.2 cols
    (p.1 :: q.1, q.2)

/-- Read `grid[c][r].sym`; out-of-range reads give `none` (in range under
the dimension invariant, which is the only way the source reads it). -/
def cellAt (g : Grid) (c r : Nat) : Option SymbolId :=
  ((g.getD c []).getD r (none : Cell))

/-- Write `grid[c][r].sym = v`; out-of-range writes are dropped. -/
def setCell (g : Grid) (c r : Nat) (v : Cell) : Grid :=
  g.set c ((g.getD c []).set r v)

/-- `deleteWins`: every cell referenced by any win is set to `null`. -/
def deleteWins (g : Grid) (wins : List Win) : Grid :=
  wins.foldl (fun g w => w.cells.foldl (fun g p => setCell g p.c p.r none) g) g

/-- The bottom-up write-pointer loop of `applyGravity` on one column:
`gravityGo col write r` still has to process indices `r-1, …, 0`. -/
def gravityGo : List Cell → Nat → Nat → List Cell
  | col, _, 0 => col
  | col, write, r + 1 =>
    match col.getD r (none : Cell) with
    | some s =>
      if write = r then gravityGo col (write - 1) r
      else gravityGo ((col.set write (some s)).set r none) (write - 1) r
    | none => gravityGo col write r

/-- `applyGravity` on one column: write pointer starts at `rows - 1`. -/
def applyGravityCol (rows : Nat) (col : List Cell) : List Cell :=
  gravityGo col (rows - 1) rows

/-- `applyGravity`: each column compacts independently. -/
def applyGravity (rows : Nat) (g : Grid) : Grid :=
  g.map (applyGravityCol rows)

/-- The flush of a finished streak in `evaluateWins`: a win is pushed when
the streak has length ≥ 3, with payout `length * 10`. -/
def flushWin (cells : List Pos) : List Win :=
  if 3 ≤ cells.length then [⟨cells, cells.length * 10⟩] else []

/-- Flush of the optional streak at the end of a row. -/
def flushStreak : Option (SymbolId × List Pos) → List Win
  | none => []
  | some (_, cells) => flushWin cells

/-- The column loop of `evaluateWins` for row `r`, over the cells paired
with their column index: `if (!sym) continue` skips empty cells without
touching the streak; a different symbol flushes the streak and starts a
new one. -/
def scanRow (r : Nat) (streak : Option (SymbolId × List Pos)) :
    List (Nat × Option SymbolId) → List Win
  | [] => flushStreak streak
  | (_, none) :: rest => scanRow r streak rest
  | (c, some s) :: rest =>
    match streak with
    | none => scanRow r (some (s, [⟨c, r⟩])) rest
    | some (s0, cells) =>
      if s0 = s then scanRow r (some (s0, cells ++ [⟨c, r⟩])) rest
      else flushWin cells ++ scanRow r (some (s, [⟨c, r⟩])) rest

/-- `evaluateWins`: row loop outside, column loop inside; wins accumulate
across rows in row order. -/
def evaluateWins (cols rows : Nat) (g : Grid) : List Win :=
  (List.range rows).flatMap fun r =>
    scanRow r none ((List.range cols).map fun c => (c, cellAt g c r))

/-- A spin result `{wins, cascades}`. -/
structure SpinResult where
  wins : List Win
  cascades : Nat
deriving DecidableEq, Repr

/-- A recorded bonus-hook invocation: which hook, on which registered
bonus, and the value of the `spinning` flag at the moment of the call. -/
inductive HookCall where
  | onSpinStart (bonus : Nat) (spinningFlag : Bool)
  | onSpinEnd (bonus : Nat) (spinningFlag : Bool)
deriving DecidableEq, Repr

/-- Constructor input `Partial<EngineConfig>`. -/
structure PartialEngineConfig where
  grid : Option GridSize := none
  spinStyle : Option SpinStyle := none
  spinSpeed : Option Rat := none
  fallSpeed : Option Rat := none
  symbolWeights : Option (List (SymbolId × Nat)) := none
  rngSeed : Option Nat := none
deriving DecidableEq, Repr

/-- The `SlotEngine` constructor: defaults merged with the partial config;
`entropy` stands for the `Math.floor(Math.random() * 1e9)` draw used only
when `rngSeed` is absent. The grid is created empty and filled at once. -/
def mkEngine (entropy : Nat) (cfg : PartialEngineConfig) : SlotEngine :=
  let config : EngineConfig :=
    { grid := cfg.grid.getD ⟨5, 3⟩
      spinStyle := cfg.spinStyle.getD SpinStyle.regular
      spinSpeed := cfg.spinSpeed.getD 18
      fallSpeed := cfg.fallSpeed.getD 28
      symbolWeights := cfg.symbolWeights.getD DEFAULT_WEIGHTS
      rngSeed := cfg.rngSeed.getD entropy }
  let fg := fillAllGrid config.symbolWeights (rngInit config.rngSeed)
    (makeEmptyGrid config.grid)
  { config := config, grid := fg.1, rng := fg.2, spinning := false,
    cascadesInChain := 0, bonuses := [] }

/-- `setGrid`: store the new size, reallocate the grid, refill it. -/
def setGrid (size : GridSize) (e : SlotEngine) : SlotEngine :=
  let cfg := { e.config with grid := size }
  let fg := fillAllGrid cfg.symbolWeights e.rng (makeEmptyGrid size)
  { e with config := cfg, grid := fg.1, rng := fg.2 }

/-- `setSpinStyle`. -/
def setSpinStyle (s : SpinStyle) (e : SlotEngine) : SlotEngine :=
  { e with config := { e.config with spinStyle := s } }

/-- `setSpeed`: `fallSpeed` is updated only when provided. -/
def setSpeed (spinSpeed : Rat) (fallSpeed : Option Rat) (e : SlotEngine) :
    SlotEngine :=
  { e with config := { e.config with
      spinSpeed := spinSpeed
      fallSpeed := fallSpeed.getD e.config.fallSpeed } }

/-- `setWeights`: object-spread merge `{...old, ...patch}` on the weight
table; existing keys keep their position and take the patched value, new
keys are appended in patch order. -/
def mergeWeights (old patch : List (SymbolId × Nat)) : List (SymbolId × Nat) :=
  old.map (fun p => (p.1, (patch.lookup p.1).getD p.2)) ++
    patch.filter (fun p => (old.lookup p.1).isNone)

/-- `setWeights`. -/
def setWeights (patch : List (SymbolId × Nat)) (e : SlotEngine) : SlotEngine :=
  { e with config := { e.config with
      symbolWeights := mergeWeights e.config.symbolWeights patch } }

/-- `registerBonus`: push onto the bonus list. -/
def registerBonus (b : Nat) (e : SlotEngine) : SlotEngine :=
  { e with bonuses := e.bonuses ++ [b] }

/-- `fillAllRandom` as an engine step. -/
def fillAllRandom (e : SlotEngine) : SlotEngine :=
  let fg := fillAllGrid e.config.symbolWeights e.rng e.grid
  { e with grid := fg.1, rng := fg.2 }

/-- `fillTop` as an engine step. -/
def fillTopR (e : SlotEngine) : SlotEngine :=
  let fg := fillTopGrid e.config.symbolWeights e.rng e.grid
  { e with grid := fg.1, rng := fg.2 }

/-- The `while (wins.length)` loop of the cascading branch of `spin`:
delete, gravity, refill, bump `cascadesInChain`, re-evaluate. Returns the
final engine, the final (loop-exiting) `wins` value, and the list of win
lists consumed by the completed passes; `none` when the fuel runs out. -/
def cascadeLoop : Nat → SlotEngine → List Win →
    Option (SlotEngine × List Win × List (List Win))
  | _, e, [] => some (e, [], [])
  | 0, _, _ :: _ => none
  | fuel + 1, e, w :: ws =>
    let wins := w :: ws
    let e1 := { e with grid := deleteWins e.grid wins }
    let e2 := { e1 with grid := applyGravity e1.config.grid.rows e1.grid }
    let e3 := fillTopR e2
    let e4 := { e3 with cascadesInChain := e3.cascadesInChain + 1 }
    match cascadeLoop fuel e4
        (evaluateWins e4.config.grid.cols e4.config.grid.rows e4.grid) with
    | none => none
    | some (e5, finalWins, hist) => some (e5, finalWins, wins :: hist)

/-- `spin`: re-entrancy guard, spin-start hooks, full refill, evaluation,
optional cascade loop, flag reset, spin-end hooks. The result carries the
final engine, `{wins, cascades}`, the hook-invocation trace, and the
cascade history; in the source the `spinning` flag is set to `false`
before the spin-end hooks run, which the recorded flags reflect. -/
def spin (fuel : Nat) (e : SlotEngine) :
    Option (SlotEngine × SpinResult × List HookCall × List (List Win)) :=
  if e.spinning then some (e, ⟨[], 0⟩, [], [])
  else
    let e1 := { e with spinning := true }
    let startCalls := e1.bonuses.map fun b => HookCall.onSpinStart b e1.spinning
    let e2 := fillAllRandom e1
    let wins := evaluateWins e2.config.grid.cols e2.config.grid.rows e2.grid
    if e2.config.spinStyle = SpinStyle.cascading then
      match cascadeLoop fuel { e2 with cascadesInChain := 0 } wins with
      | none => none
      | some (e4, finalWins, hist) =>
        let e5 := { e4 with spinning := false }
        let endCalls := e5.bonuses.map fun b => HookCall.onSpinEnd b e5.spinning
        some (e5, ⟨finalWins, e5.cascadesInChain⟩, startCalls ++ endCalls, hist)
    else
      let e5 := { e2 with spinning := false }
      let endCalls := e5.bonuses.map fun b => HookCall.onSpinEnd b e5.spinning
      some (e5, ⟨wins, e5.cascadesInChain⟩, startCalls ++ endCalls, [])

/-- `getSnapshot`: the symbol matrix (deep copies are identities here). -/
def getSnapshot (e : SlotEngine) : Grid := e.grid

/-- One externally visible engine operation. -/
inductive Op where
  | spin (fuel : Nat)
  | setGrid (size : GridSize)
  | setSpinStyle (s : SpinStyle)
  | setSpeed (spinSpeed : Rat) (fallSpeed : Option Rat)
  | setWeights (patch : List (SymbolId × Nat))
  | registerBonus (b : Nat)
deriving DecidableEq, Repr

/-- Apply one operation; the observable output of a step is the grid
snapshot after the step together with the win list it returned (empty for
setters, and for a spin whose fuel ran out). -/
def applyOp (e : SlotEngine) : Op → SlotEngine × (Grid × List Win)
  | .spin fuel =>
    match spin fuel e with
    | some (e1, res, _, _) => (e1, (getSnapshot e1, res.wins))
    | none => (e, (getSnapshot e, []))
  | .setGrid size => let e1 := setGrid size e; (e1, (getSnapshot e1, []))
  | .setSpinStyle s => let e1 := setSpinStyle s e; (e1, (getSnapshot e1, []))
  | .setSpeed a b => let e1 := setSpeed a b e; (e1, (getSnapshot e1, []))
  | .setWeights w => let e1 := setWeights w e; (e1, (getSnapshot e1, []))
  | .registerBonus b => let e1 := registerBonus b e; (e1, (getSnapshot e1, []))

/-- Run a sequence of operations, collecting the observable outputs. -/
def runOps (e : SlotEngine) : List Op → List (Grid × List Win)
  | [] => []
  | op :: rest =>
    let p := applyOp e op
    p.2 :: runOps p.1 rest

/-! Specification-side definitions, used to state the claims about the win
evaluator: maximal runs of equal adjacent symbols, following §4.4 of the
spec, to be compared with `evaluateWins`. -/

/-- Maximal runs of adjacent pairs with equal second component (symbol):
the grouping of one row into streaks described by the spec. -/
def runs : List (Nat × SymbolId) → List (List (Nat × SymbolId))
  | [] => []
  | [x] => [[x]]
  | x :: y :: xs =>
    if x.2 = y.2 then
      match runs (y :: xs) with
      | [] => [[x]]
      | grp :: grps => (x :: grp) :: grps
    else [x] :: runs (y :: xs)

/-- The wins of one row according to the spec: one `Win` per maximal run
of length ≥ 3, payout `length × 10`, cells in scan order. -/
def rowRunWins (r : Nat) (L : List (Nat × SymbolId)) : List Win :=
  ((runs L).filter fun grp => 3 ≤ grp.length).map fun run =>
    ⟨run.map fun p => ⟨p.1, r⟩, run.length * 10⟩

/-- The non-empty cells of row `r` in scan (column) order, paired with
their column index. -/
def rowCells (g : Grid) (cols r : Nat) : List (Nat × SymbolId) :=
  (List.range cols).filterMap fun c => (cellAt g c r).map fun s => (c, s)

/-- All wins of the grid according to the spec: rows in order, and within
a row the qualifying runs left to right. -/
def winsByRuns (cols rows : Nat) (g : Grid) : List Win :=
  (List.range rows).flatMap fun r => rowRunWins r (rowCells g cols r)

/-- The symbols of row `r` read under a full grid (the default is never
exercised when every cell of the row is non-empty). -/
def rowSymsFull (g : Grid) (cols r : Nat) : List (Nat × SymbolId) :=
  (List.range cols).map fun c => (c, (cellAt g c r).getD SymbolId.sym_bear)

/-- Well-formedness: the grid has exactly `size.cols` columns of
`size.rows` cells each. -/
def gridWF (size : GridSize) (g : Grid) : Prop :=
  g.length = size.cols ∧ ∀ col ∈ g, col.length = size.rows

/-- Fullness: every cell holds a symbol. -/
def gridFull (g : Grid) : Prop :=
  ∀ col ∈ g, ∀ cell ∈ col, cell ≠ none

/-- The at-rest invariant of the engine grid: dimensions match the current
config and no cell is empty. -/
def atRest (e : SlotEngine) : Prop :=
  gridWF e.config.grid e.grid ∧ gridFull e.grid

instance (size : GridSize) (g : Grid) : Decidable (gridWF size g) := by
  unfold gridWF; infer_instance

instance (g : Grid) : Decidable (gridFull g) := by
  unfold gridFull; infer_instance

instance (e : SlotEngine) : Decidable (atRest e) := by
  unfold atRest; infer_instance

/-- The hook-invocation trace of a spin result. -/
def traceOf (o : Option (SlotEngine × SpinResult × List HookCall × List (List Win))) :
    List HookCall :=
  (o.map fun t => t.2.2.1).getD []

/-! Concrete fixtures used by witnesses and counterexamples. -/

/-- A 4×1 grid whose only row is `[bear, empty, bear, bear]`. -/
def gHole : Grid :=
  [[some .sym_bear], [(none : Cell)], [some .sym_bear], [some .sym_bear]]

/-- A 5×1 grid whose only row is `[bear, bear, bear, wolf, elk]`. -/
def gRow : Grid :=
  [[some .sym_bear], [some .sym_bear], [some .sym_bear],
   [some .sym_wolf], [some .sym_elk]]

/-- The gravity example column of §8.6, top to bottom. -/
def colEx : List Cell :=
  [some .sym_bear, none, some .sym_wolf, none, some .sym_elk]

/-- A deterministic 1×1 cascading-style config with a single certain
symbol. -/
def cfgC : PartialEngineConfig :=
  { grid := some ⟨1, 1⟩, spinStyle := some SpinStyle.cascading,
    symbolWeights := some [(.sym_bear, 1)], rngSeed := some 1 }

/-- Engine for the cascading witness. -/
def eC : SlotEngine := mkEngine 0 cfgC

/-- A 1×1 regular-style engine with one registered bonus. -/
def eX : SlotEngine :=
  registerBonus 0 (mkEngine 7
    { grid := some ⟨1, 1⟩, symbolWeights := some [(.sym_bear, 1)],
      rngSeed := some 1 })

/-- A 1×1 regular-style engine with a leftover cascade counter of 7. -/
def eReg : SlotEngine :=
  { mkEngine 3
      { grid := some ⟨1, 1⟩, symbolWeights := some [(.sym_bear, 1)],
        rngSeed := some 2 } with
    cascadesInChain := 7 }

/-- An engine caught mid-spin: the `spinning` flag is set. -/
def eBusy : SlotEngine :=
  { mkEngine 5
      { grid := some ⟨2, 2⟩, rngSeed := some 9 } with
    spinning := true, cascadesInChain := 4 }

/-- The column loop of `evaluateWins` restricted to the non-empty cells of
the row: a proof intermediary connecting `scanRow` (which skips empties in
place) with the run grouping `runs`. -/
def scanRowP (r : Nat) (streak : Option (SymbolId × List Pos)) :
    List (Nat × SymbolId) → List Win
  | [] => flushStreak streak
  | (c, s) :: rest =>
    match streak with
    | none => scanRowP r (some (s, [⟨c, r⟩])) rest
    | some (s0, cells) =>
      if s0 = s then scanRowP r (some (s0, cells ++ [⟨c, r⟩])) rest
      else flushWin cells ++ scanRowP r (some (s, [⟨c, r⟩])) rest

/-! Lemmas. -/

/-- The scaled integer loop agrees everywhere with the rational loop of
the source: scaling all compared quantities by the positive constant
`2^32` changes no comparison. -/
theorem pickLoop_eq_pickLoopN (ws : List (SymbolId × Nat)) :
    ∀ (tN : Int) (fb : SymbolId),
      pickLoop ((tN : Rat) / 4294967296) ws fb = pickLoopN tN ws fb := by
  induction ws with
  | nil => intro tN fb; rfl
  | cons p rest ih =>
    intro tN fb
    obtain ⟨s, w⟩ := p
    have hsub : ((tN : Rat) / 4294967296 - (w : Rat)) =
        (((tN - (w : Int) * 4294967296 : Int) : Rat) / 4294967296) := by
      push_cast
      ring
    have hiff : ((tN : Rat) / 4294967296 - (w : Rat) ≤ 0) ↔
        (tN - (w : Int) * 4294967296 ≤ 0) := by
      rw [hsub, div_nonpos_iff]
      constructor
      · rintro (⟨h1, h2⟩ | ⟨h1, h2⟩)
        · norm_num at h2
        · exact_mod_cast h1
      · intro h
        right
        refine ⟨by exact_mod_cast h, by norm_num⟩
    simp only [pickLoop, pickLoopN]
    by_cases h : tN - (w : Int) * 4294967296 ≤ 0
    · rw [if_pos h, if_pos (hiff.mpr h)]
    · rw [if_neg h, if_neg (fun hc => h (hiff.mp hc)), hsub, ih]

/-- On the quantities the source actually feeds it — one RNG draw times
the weight total — `pickRandomSymbol` runs the source's rational loop. -/
theorem pickRandomSymbol_eq_pickLoop (ws : List (SymbolId × Nat)) (x : Nat) :
    pickRandomSymbol ws x =
      (pickLoop ((rngStep x).1 * (((ws.map Prod.snd).sum : Nat) : Rat)) ws
        ((ws.getLast?).elim SymbolId.sym_bear Prod.fst), rngNext x) := by
  have hval : ∀ T : Nat, (rngStep x).1 * (T : Rat) =
      (((rngNext x : Int) * (T : Int) : Int) : Rat) / 4294967296 := by
    intro T
    simp only [rngStep]
    push_cast
    ring
  rw [pickRandomSymbol, hval, pickLoop_eq_pickLoopN]

/-- Closure of `sar17` on 32-bit patterns. -/
theorem sar17_lt (x : Nat) (h : x < 4294967296) : sar17 x < 4294967296 := by
  unfold sar17
  have h17 : x >>> 17 = x / 131072 := by
    simp [Nat.shiftRight_eq_div_pow]
  split
  · omega
  · have : x / 131072 < 32768 := by omega
    omega

/-- Closure of the generator step on 32-bit patterns. -/
theorem rngNext_lt (x : Nat) (h : x < 4294967296) :
    rngNext x < 4294967296 := by
  unfold rngNext
  have e32 : (4294967296 : Nat) = 2 ^ 32 := by norm_num
  have hmod1 : (x <<< 13) % 4294967296 < 4294967296 := Nat.mod_lt _ (by norm_num)
  have h1 : x ^^^ ((x <<< 13) % 4294967296) < 4294967296 := by
    rw [e32] at h hmod1 ⊢
    exact Nat.xor_lt_two_pow h hmod1
  have h2 : (x ^^^ ((x <<< 13) % 4294967296)) ^^^
      sar17 (x ^^^ ((x <<< 13) % 4294967296)) < 4294967296 := by
    have hs := sar17_lt _ h1
    rw [e32] at h1 hs ⊢
    exact Nat.xor_lt_two_pow h1 hs
  have hmod2 : (((x ^^^ ((x <<< 13) % 4294967296)) ^^^
      sar17 (x ^^^ ((x <<< 13) % 4294967296))) <<< 5) % 4294967296 <
      4294967296 := Nat.mod_lt _ (by norm_num)
  rw [e32] at h2 hmod2 ⊢
  exact Nat.xor_lt_two_pow h2 hmod2

/-- The emitted value is a 32-bit unsigned integer over `2^32`, hence in
`[0, 1)`. -/
theorem rngStep_mem_Ico (x : Nat) (h : x < 4294967296) :
    0 ≤ (rngStep x).1 ∧ (rngStep x).1 < 1 := by
  have hlt := rngNext_lt x h
  constructor
  · exact div_nonneg (by positivity) (by norm_num)
  · rw [rngStep]
    have : ((rngNext x : Rat)) < 4294967296 := by exact_mod_cast hlt
    rw [div_lt_one (by norm_num)]
    exact this

/-- `fillAllCol` keeps the column length. -/
theorem fillAllCol_length (w : List (SymbolId × Nat)) :
    ∀ (col : List Cell) (x : Nat), (fillAllCol w x col).1.length = col.length := by
  intro col
  induction col with
  | nil => intro x; rfl
  | cons a rest ih => intro x; simp [fillAllCol, ih]

/-- Every cell written by `fillAllCol` holds a symbol. -/
theorem fillAllCol_full (w : List (SymbolId × Nat)) :
    ∀ (col : List Cell) (x : Nat), ∀ cell ∈ (fillAllCol w x col).1, cell ≠ none := by
  intro col
  induction col with
  | nil => intro x cell hc; simp [fillAllCol] at hc
  | cons a rest ih =>
    intro x cell hc
    simp only [fillAllCol, List.mem_cons] at hc
    rcases hc with hc | hc
    · subst hc; simp
    · exact ih _ cell hc

/-- `fillAllGrid` keeps the shape of the grid (column count and each
column's length). -/
theorem fillAllGrid_shape (w : List (SymbolId × Nat)) :
    ∀ (g : Grid) (x : Nat),
      (fillAllGrid w x g).1.map List.length = g.map List.length := by
  intro g
  induction g with
  | nil => intro x; rfl
  | cons col cols ih =>
    intro x
    simp [fillAllGrid, fillAllCol_length, ih]

/-- Every cell of a grid refilled by `fillAllGrid` holds a symbol. -/
theorem fillAllGrid_full (w : List (SymbolId × Nat)) :
    ∀ (g : Grid) (x : Nat), gridFull (fillAllGrid w x g).1 := by
  intro g
  induction g with
  | nil => intro x col hcol; simp [fillAllGrid] at hcol
  | cons col cols ih =>
    intro x col' hcol'
    simp only [fillAllGrid, List.mem_cons] at hcol'
    rcases hcol' with hcol' | hcol'
    · subst hcol'; exact fillAllCol_full w col x
    · exact ih _ col' hcol'

/-- `fillTopCol` keeps the column length. -/
theorem fillTopCol_length (w : List (SymbolId × Nat)) :
    ∀ (col : List Cell) (x : Nat), (fillTopCol w x col).1.length = col.length := by
  intro col
  induction col with
  | nil => intro x; rfl
  | cons a rest ih =>
    intro x
    cases a with
    | some s => simp [fillTopCol, ih]
    | none => simp [fillTopCol, ih]

/-- After `fillTopCol` every cell of the column holds a symbol. -/
theorem fillTopCol_full (w : List (SymbolId × Nat)) :
    ∀ (col : List Cell) (x : Nat), ∀ cell ∈ (fillTopCol w x col).1, cell ≠ none := by
  intro col
  induction col with
  | nil => intro x cell hc; simp [fillTopCol] at hc
  | cons a rest ih =>
    intro x cell hc
    cases a with
    | some s =>
      simp only [fillTopCol, List.mem_cons] at hc
      rcases hc with hc | hc
      · subst hc; simp
      · exact ih _ cell hc
    | none =>
      simp only [fillTopCol, List.mem_cons] at hc
      rcases hc with hc | hc
      · subst hc; simp
      · exact ih _ cell hc

/-- `fillTopGrid` keeps the shape of the grid. -/
theorem fillTopGrid_shape (w : List (SymbolId × Nat)) :
    ∀ (g : Grid) (x : Nat),
      (fillTopGrid w x g).1.map List.length = g.map List.length := by
  intro g
  induction g with
  | nil => intro x; rfl
  | cons col cols ih =>
    intro x
    simp [fillTopGrid, fillTopCol_length, ih]

/-- After `fillTopGrid` every cell of the grid holds a symbol. -/
theorem fillTopGrid_full (w : List (SymbolId × Nat)) :
    ∀ (g : Grid) (x : Nat), gridFull (fillTopGrid w x g).1 := by
  intro g
  induction g with
  | nil => intro x col hcol; simp [fillTopGrid] at hcol
  | cons col cols ih =>
    intro x col' hcol'
    simp only [fillTopGrid, List.mem_cons] at hcol'
    rcases hcol' with hcol' | hcol'
    · subst hcol'; exact fillTopCol_full w col x
    · exact ih _ col' hcol'

/-- Shape equality in terms of `gridWF`: two grids with the same
length-profile are well-formed for the same sizes. -/
theorem gridWF_of_map_length_eq {size : GridSize} {g g' : Grid}
    (hmap : g'.map List.length = g.map List.length) (h : gridWF size g) :
    gridWF size g' := by
  obtain ⟨hlen, hcols⟩ := h
  constructor
  · have hl := congrArg List.length hmap
    simp only [List.length_map] at hl
    exact hl.trans hlen
  · intro col hcol
    have : col.length ∈ g'.map List.length := List.mem_map_of_mem _ hcol
    rw [hmap] at this
    obtain ⟨col0, hcol0, hlen0⟩ := List.mem_map.mp this
    rw [← hlen0]
    exact hcols col0 hcol0

/-- Reading at the junction of an append. -/
theorem getD_append_length {α : Type _} (l1 l2 : List α) (x d : α) :
    (l1 ++ x :: l2).getD l1.length d = x := by
  rw [List.getD_eq_getElem?_getD, List.getElem?_append_right (Nat.le_refl _)]
  simp

/-- Writing past an append prefix. -/
theorem set_append_offset {α : Type _} (l1 l2 : List α) (i : Nat) (a : α) :
    (l1 ++ l2).set (l1.length + i) a = l1 ++ l2.set i a := by
  rw [List.set_append_right _ _ (by omega)]
  have h2 : l1.length + i - l1.length = i := by omega
  rw [h2]

/-- Writing the last slot of a replicated block. -/
theorem replicate_set_last {α : Type _} (m : Nat) (d a : α) :
    (List.replicate (m + 1) d).set m a = List.replicate m d ++ [a] := by
  rw [List.replicate_succ']
  have h := set_append_offset (List.replicate m d) [d] 0 a
  rw [Nat.add_zero, List.length_replicate] at h
  rw [h]
  rfl

/-- One step of the gravity loop over a non-empty cell. -/
theorem gravityGo_step_some (col : List Cell) (write r : Nat) (s : SymbolId)
    (h : col.getD r (none : Cell) = some s) :
    gravityGo col write (r + 1) =
      if write = r then gravityGo col (write - 1) r
      else gravityGo ((col.set write (some s)).set r none) (write - 1) r := by
  rw [gravityGo, h]

/-- One step of the gravity loop over an empty cell. -/
theorem gravityGo_step_none (col : List Cell) (write r : Nat)
    (h : col.getD r (none : Cell) = none) :
    gravityGo col write (r + 1) = gravityGo col write r := by
  rw [gravityGo, h]

/-- Invariant of the write-pointer loop of `applyGravity`: ahead of the
pointer the column is an untouched prefix `P`; between the positions still
to be processed and the pointer everything is empty; behind the pointer
sits the already-compacted tail `T`. Completing the loop compacts the
non-empty cells of `P` onto the front of `T` and leaves all empties on
top. -/
theorem gravityGo_spec :
    ∀ (P : List Cell) (m : Nat) (T : List SymbolId),
      gravityGo (P ++ (List.replicate m (none : Cell) ++ T.map some))
        (P.length + m - 1) P.length =
      List.replicate (m + (P.length - (P.filterMap id).length)) (none : Cell) ++
        ((P.filterMap id) ++ T).map some := by
  intro P
  induction P using List.reverseRecOn with
  | nil =>
    intro m T
    simp [gravityGo]
  | append_singleton P' x ih =>
    intro m T
    have hk : (P'.filterMap id).length ≤ P'.length := List.length_filterMap_le id P'
    have hcol : (P' ++ [x]) ++ (List.replicate m (none : Cell) ++ T.map some)
        = P' ++ (x :: (List.replicate m (none : Cell) ++ T.map some)) := by
      simp
    have hlen : (P' ++ [x]).length = P'.length + 1 := by simp
    rw [hcol, hlen]
    have hwrite : P'.length + 1 + m - 1 = P'.length + m := by omega
    rw [hwrite]
    cases x with
    | none =>
      rw [gravityGo_step_none _ _ _ (getD_append_length _ _ _ _)]
      have hrest : P' ++ ((none : Cell) :: (List.replicate m (none : Cell) ++ T.map some))
          = P' ++ (List.replicate (m + 1) (none : Cell) ++ T.map some) := by
        rw [List.replicate_succ]
        simp
      have hw : P'.length + m = P'.length + (m + 1) - 1 := by omega
      rw [hrest, hw, ih (m + 1) T]
      have hfm : ((P' ++ [(none : Cell)]).filterMap id) = P'.filterMap id := by
        simp
      rw [hfm]
      congr 2
      omega
    | some s =>
      rw [gravityGo_step_some _ _ _ s (getD_append_length _ _ _ _)]
      cases m with
      | zero =>
        rw [if_pos (by omega)]
        have hrest : P' ++ ((some s : Cell) :: (List.replicate 0 (none : Cell) ++ T.map some))
            = P' ++ (List.replicate 0 (none : Cell) ++ (s :: T).map some) := by
          simp
        have hw : P'.length + 0 - 1 = P'.length + 0 - 1 := rfl
        rw [hrest, show P'.length + 0 - 1 = P'.length + 0 - 1 from rfl]
        rw [ih 0 (s :: T)]
        have hfm : ((P' ++ [(some s : Cell)]).filterMap id) = P'.filterMap id ++ [s] := by
          simp
        rw [hfm]
        have hlist : (P'.filterMap id ++ [s]) ++ T = P'.filterMap id ++ (s :: T) := by
          simp
        rw [hlist]
        congr 2
        simp only [List.length_append, List.length_cons, List.length_nil]
        omega
      | succ m' =>
        rw [if_neg (by omega)]
        have hset1 : (P' ++ ((some s : Cell) :: (List.replicate (m' + 1) (none : Cell) ++ T.map some))).set
              (P'.length + (m' + 1)) (some s)
            = P' ++ ((some s : Cell) :: ((List.replicate m' (none : Cell) ++ [some s]) ++ T.map some)) := by
          rw [set_append_offset]
          congr 1
          rw [List.set_cons_succ]
          congr 1
          rw [List.set_append_left _ _ (by simp), replicate_set_last]
        have hset2 : (P' ++ ((some s : Cell) :: ((List.replicate m' (none : Cell) ++ [some s]) ++ T.map some))).set
              P'.length none
            = P' ++ (List.replicate (m' + 1) (none : Cell) ++ (s :: T).map some) := by
          have h0 := set_append_offset P'
            ((some s : Cell) :: ((List.replicate m' (none : Cell) ++ [some s]) ++ T.map some)) 0 none
          rw [Nat.add_zero] at h0
          rw [h0, List.set_cons_zero, List.replicate_succ]
          simp
        rw [hset1, hset2]
        have hw : P'.length + (m' + 1) - 1 = P'.length + (m' + 1) - 1 := rfl
        rw [ih (m' + 1) (s :: T)]
        have hfm : ((P' ++ [(some s : Cell)]).filterMap id) = P'.filterMap id ++ [s] := by
          simp
        rw [hfm]
        have hlist : (P'.filterMap id ++ [s]) ++ T = P'.filterMap id ++ (s :: T) := by
          simp
        rw [hlist]
        congr 2
        simp only [List.length_append, List.length_cons, List.length_nil]
        omega

/-- The gravity loop preserves the column length. -/
theorem gravityGo_length :
    ∀ (r : Nat) (col : List Cell) (write : Nat),
      (gravityGo col write r).length = col.length := by
  intro r
  induction r with
  | zero => intro col write; rfl
  | succ r ih =>
    intro col write
    cases hget : col.getD r (none : Cell) with
    | none => rw [gravityGo_step_none _ _ _ hget, ih]
    | some s =>
      rw [gravityGo_step_some _ _ _ s hget]
      by_cases hw : write = r
      · rw [if_pos hw, ih]
      · rw [if_neg hw, ih]
        simp

/-- `applyGravityCol` on a column of the stated length is the stable
compaction: all empties on top, the non-empty symbols at the bottom in
their original order. -/
theorem applyGravityCol_eq (col : List Cell) :
    applyGravityCol col.length col =
      List.replicate (col.length - (col.filterMap id).length) (none : Cell) ++
        (col.filterMap id).map some := by
  have hg := gravityGo_spec col 0 []
  simp only [List.replicate_zero, List.map_nil, List.nil_append,
    List.append_nil, Nat.add_zero, Nat.zero_add] at hg
  unfold applyGravityCol
  exact hg

/-- `scanRow` ignores empty cells entirely: it scans exactly the
compacted list of non-empty entries. -/
theorem scanRow_eq_scanRowP (r : Nat) :
    ∀ (L : List (Nat × Option SymbolId)) (streak : Option (SymbolId × List Pos)),
      scanRow r streak L =
        scanRowP r streak (L.filterMap fun p => p.2.map fun s => (p.1, s)) := by
  intro L
  induction L with
  | nil => intro streak; cases streak <;> rfl
  | cons p rest ih =>
    intro streak
    obtain ⟨c, o⟩ := p
    cases o with
    | none => simp only [scanRow, List.filterMap_cons, Option.map_none]; exact ih streak
    | some s =>
      simp only [List.filterMap_cons, Option.map_some']
      cases streak with
      | none => simp only [scanRow, scanRowP]; exact ih _
      | some st =>
        obtain ⟨s0, cells⟩ := st
        simp only [scanRow, scanRowP]
        by_cases h : s0 = s
        · rw [if_pos h, if_pos h, ih]
        · rw [if_neg h, if_neg h, ih]

/-- A live streak absorbs exactly the leading cells carrying its symbol,
flushes, and the scan restarts on the remainder. -/
theorem scanRowP_streak (r : Nat) :
    ∀ (L : List (Nat × SymbolId)) (s0 : SymbolId) (cells : List Pos),
      scanRowP r (some (s0, cells)) L =
        flushWin (cells ++
            (L.takeWhile fun p => decide (s0 = p.2)).map fun p => (⟨p.1, r⟩ : Pos)) ++
          scanRowP r none (L.dropWhile fun p => decide (s0 = p.2)) := by
  intro L
  induction L with
  | nil =>
    intro s0 cells
    simp [scanRowP, flushStreak, List.takeWhile_nil, List.dropWhile_nil]
  | cons p rest ih =>
    intro s0 cells
    obtain ⟨c, s⟩ := p
    by_cases h : s0 = s
    · simp only [scanRowP]
      rw [if_pos h, ih s0 (cells ++ [(⟨c, r⟩ : Pos)]), List.takeWhile_cons, List.dropWhile_cons]
      rw [if_pos (by simp [h]), if_pos (by simp [h])]
      simp
    · simp only [scanRowP]
      rw [if_neg h, List.takeWhile_cons, List.dropWhile_cons]
      rw [if_neg (by simp [h]), if_neg (by simp [h])]
      simp only [List.map_nil, List.append_nil]
      rfl

/-- Decomposition of `runs` at a cons: the first group is the head plus
the symbols matching it, the rest are the runs of the remainder. -/
theorem runs_cons (c : Nat) (s : SymbolId) :
    ∀ (rest : List (Nat × SymbolId)),
      runs ((c, s) :: rest) =
        ((c, s) :: rest.takeWhile fun p => decide (s = p.2)) ::
          runs (rest.dropWhile fun p => decide (s = p.2)) := by
  intro rest
  induction rest generalizing c s with
  | nil => rfl
  | cons q ys ih =>
    obtain ⟨cy, sy⟩ := q
    by_cases h : s = sy
    · rw [runs, if_pos (by simpa using h), ih cy sy]
      rw [List.takeWhile_cons, List.dropWhile_cons]
      rw [if_pos (by simp [h]), if_pos (by simp [h])]
      subst h
      rfl
    · rw [runs, if_neg (by simpa using h)]
      rw [List.takeWhile_cons, List.dropWhile_cons]
      rw [if_neg (by simp [h]), if_neg (by simp [h])]

/-- Bounded-length version of the equivalence between the streak scan and
the run grouping. -/
theorem scanRowP_none_eq_aux (r : Nat) :
    ∀ (n : Nat) (L : List (Nat × SymbolId)), L.length ≤ n →
      scanRowP r none L = rowRunWins r L := by
  intro n
  induction n with
  | zero =>
    intro L hL
    have hnil : L = [] := List.eq_nil_of_length_eq_zero (Nat.le_zero.mp hL)
    subst hnil
    rfl
  | succ n ih =>
    intro L hL
    cases L with
    | nil => rfl
    | cons p rest =>
      obtain ⟨c, s⟩ := p
      have hstep : scanRowP r none ((c, s) :: rest) =
          scanRowP r (some (s, [⟨c, r⟩])) rest := rfl
      rw [hstep, scanRowP_streak]
      have hlen : (rest.dropWhile fun p => decide (s = p.2)).length ≤ n := by
        have h1 := (List.dropWhile_sublist (fun p => decide (s = p.2)) (l := rest)).length_le
        have h2 : rest.length ≤ n := by
          simpa using Nat.succ_le_succ_iff.mp (by simpa using hL)
        omega
      rw [ih _ hlen]
      conv_rhs => rw [rowRunWins, runs_cons, List.filter_cons]
      by_cases h3 : 3 ≤ ((c, s) :: rest.takeWhile fun p => decide (s = p.2)).length
      · conv_rhs => rw [if_pos (by simpa using h3), List.map_cons]
        rw [flushWin, if_pos (by simpa using h3)]
        rw [show rowRunWins r (rest.dropWhile fun p => decide (s = p.2)) =
          ((runs (rest.dropWhile fun p => decide (s = p.2))).filter fun grp =>
            3 ≤ grp.length).map fun run =>
              (⟨run.map fun p => ⟨p.1, r⟩, run.length * 10⟩ : Win) from rfl]
        simp
      · conv_rhs => rw [if_neg (by simpa using h3)]
        rw [flushWin, if_neg (by simpa using h3)]
        rw [show rowRunWins r (rest.dropWhile fun p => decide (s = p.2)) =
          ((runs (rest.dropWhile fun p => decide (s = p.2))).filter fun grp =>
            3 ≤ grp.length).map fun run =>
              (⟨run.map fun p => ⟨p.1, r⟩, run.length * 10⟩ : Win) from rfl]
        simp

/-- The streak scan computes exactly the spec's run grouping. -/
theorem scanRowP_none_eq (r : Nat) (L : List (Nat × SymbolId)) :
    scanRowP r none L = rowRunWins r L :=
  scanRowP_none_eq_aux r L.length L (Nat.le_refl _)

/-- `evaluateWins` equals the spec-side `winsByRuns` on every grid: each
row contributes one `Win` per maximal run of length ≥ 3 among its
non-empty cells taken in column order (empty cells are skipped without
interrupting a run). -/
theorem evaluateWins_eq_winsByRuns (cols rows : Nat) (g : Grid) :
    evaluateWins cols rows g = winsByRuns cols rows g := by
  have hrow : ∀ r : Nat,
      scanRow r none ((List.range cols).map fun c => (c, cellAt g c r)) =
        rowRunWins r (rowCells g cols r) := by
    intro r
    rw [scanRow_eq_scanRowP, List.filterMap_map]
    rw [scanRowP_none_eq]
    rfl
  unfold evaluateWins winsByRuns
  have hF : (fun r => scanRow r none ((List.range cols).map fun c => (c, cellAt g c r))) =
      fun r => rowRunWins r (rowCells g cols r) := funext hrow
  rw [hF]

/-- Bounded-length version: every group produced by `runs` is a non-empty
sublist of the input whose entries all carry the same symbol. -/
theorem runs_props_aux :
    ∀ (n : Nat) (L : List (Nat × SymbolId)), L.length ≤ n →
      ∀ grp ∈ runs L,
        grp ≠ [] ∧ grp.Sublist L ∧ ∀ p ∈ grp, ∀ q ∈ grp, p.2 = q.2 := by
  intro n
  induction n with
  | zero =>
    intro L hL
    have hnil : L = [] := List.eq_nil_of_length_eq_zero (Nat.le_zero.mp hL)
    subst hnil
    intro grp hgrp
    simp [runs] at hgrp
  | succ n ih =>
    intro L hL
    cases L with
    | nil => intro grp hgrp; simp [runs] at hgrp
    | cons p rest =>
      obtain ⟨c, s⟩ := p
      intro grp hgrp
      rw [runs_cons] at hgrp
      rcases List.mem_cons.mp hgrp with hgrp | hgrp
      · subst hgrp
        refine ⟨by simp, ?_, ?_⟩
        · exact List.Sublist.cons₂ _ (List.takeWhile_sublist _)
        · have hsym : ∀ q ∈ (c, s) :: (rest.takeWhile fun p => decide (s = p.2)),
              q.2 = s := by
            intro q hq
            rcases List.mem_cons.mp hq with hq | hq
            · subst hq; rfl
            · have := List.mem_takeWhile_imp hq
              simp at this
              exact this.symm
          intro p hp q hq
          rw [hsym p hp, hsym q hq]
      · have hlen : (rest.dropWhile fun p => decide (s = p.2)).length ≤ n := by
          have h1 := (List.dropWhile_sublist (fun p => decide (s = p.2)) (l := rest)).length_le
          have h2 : rest.length ≤ n := by
            simpa using Nat.succ_le_succ_iff.mp (by simpa using hL)
          omega
        obtain ⟨h1, h2, h3⟩ := ih _ hlen grp hgrp
        refine ⟨h1, ?_, h3⟩
        exact h2.trans ((List.dropWhile_sublist _).trans (List.sublist_cons_self _ _))

/-- Every group produced by `runs` is a non-empty sublist of the input
whose entries all carry the same symbol. -/
theorem runs_props (L : List (Nat × SymbolId)) :
    ∀ grp ∈ runs L,
      grp ≠ [] ∧ grp.Sublist L ∧ ∀ p ∈ grp, ∀ q ∈ grp, p.2 = q.2 :=
  runs_props_aux L.length L (Nat.le_refl _)

/-- `filterMap` by an index-preserving partial function keeps strict
ordering of the first components. -/
theorem pairwise_fst_filterMap (f : Nat → Option (Nat × SymbolId))
    (hf : ∀ c p, f c = some p → p.1 = c) :
    ∀ (l : List Nat), l.Pairwise (· < ·) →
      (l.filterMap f).Pairwise (fun a b => a.1 < b.1) := by
  intro l
  induction l with
  | nil => intro _; simp
  | cons a t ih =>
    intro hp
    rw [List.filterMap_cons]
    obtain ⟨ha, ht⟩ := List.pairwise_cons.mp hp
    cases hfa : f a with
    | none => exact ih ht
    | some p =>
      rw [List.pairwise_cons]
      refine ⟨?_, ih ht⟩
      intro q hq
      obtain ⟨b, hb, hfb⟩ := List.mem_filterMap.mp hq
      rw [hf a p hfa, hf b q hfb]
      exact ha b hb

/-- The row extraction is strictly increasing in the column component. -/
theorem rowCells_pairwise (g : Grid) (cols r : Nat) :
    (rowCells g cols r).Pairwise (fun a b => a.1 < b.1) := by
  unfold rowCells
  refine pairwise_fst_filterMap _ ?_ _ (List.pairwise_lt_range cols)
  intro c p hp
  cases hcell : cellAt g c r with
  | none => rw [hcell] at hp; simp at hp
  | some s =>
    rw [hcell] at hp
    simp at hp
    rw [← hp]

/-- Membership in the row extraction describes the grid cell. -/
theorem rowCells_mem {g : Grid} {cols r c : Nat} {s : SymbolId}
    (h : (c, s) ∈ rowCells g cols r) : c < cols ∧ cellAt g c r = some s := by
  unfold rowCells at h
  obtain ⟨a, ha, hfa⟩ := List.mem_filterMap.mp h
  cases hcell : cellAt g a r with
  | none => rw [hcell] at hfa; simp at hfa
  | some s0 =>
    rw [hcell] at hfa
    simp at hfa
    obtain ⟨hac, hs⟩ := hfa
    subst hac
    constructor
    · exact List.mem_range.mp ha
    · rw [hcell, hs]

/-- `setCell` keeps the shape of the grid. -/
theorem setCell_map_length :
    ∀ (g : Grid) (c r : Nat) (v : Cell),
      (setCell g c r v).map List.length = g.map List.length := by
  intro g
  induction g with
  | nil => intro c r v; simp [setCell]
  | cons col gs ih =>
    intro c r v
    cases c with
    | zero => simp [setCell]
    | succ c =>
      simp only [setCell, List.getD_cons_succ, List.set_cons_succ, List.map_cons]
      have := ih c r v
      simp only [setCell] at this
      rw [this]

/-- Deleting one win's cells keeps the shape of the grid. -/
theorem foldl_setCell_map_length (cells : List Pos) :
    ∀ (g : Grid),
      (cells.foldl (fun g p => setCell g p.c p.r none) g).map List.length =
        g.map List.length := by
  induction cells with
  | nil => intro g; rfl
  | cons p rest ih =>
    intro g
    simp only [List.foldl_cons]
    rw [ih, setCell_map_length]

/-- `deleteWins` keeps the shape of the grid. -/
theorem deleteWins_map_length (wins : List Win) :
    ∀ (g : Grid), (deleteWins g wins).map List.length = g.map List.length := by
  induction wins with
  | nil => intro g; rfl
  | cons w rest ih =>
    intro g
    unfold deleteWins at ih ⊢
    simp only [List.foldl_cons]
    rw [ih, foldl_setCell_map_length]

/-- `applyGravity` keeps the shape of the grid. -/
theorem applyGravity_map_length (rows : Nat) (g : Grid) :
    (applyGravity rows g).map List.length = g.map List.length := by
  unfold applyGravity
  rw [List.map_map]
  apply List.map_congr_left
  intro col _
  simp only [Function.comp_apply]
  unfold applyGravityCol
  exact gravityGo_length rows col (rows - 1)

/-- The cascade loop never touches the config, the spinning flag or the
bonus list, exits with the empty win list, counts exactly one completed
pass per history entry, and each consumed win list was non-empty. -/
theorem cascadeLoop_spec :
    ∀ (fuel : Nat) (e : SlotEngine) (w : List Win) (e1 : SlotEngine)
      (fw : List Win) (hist : List (List Win)),
      cascadeLoop fuel e w = some (e1, fw, hist) →
      fw = [] ∧ e1.cascadesInChain = e.cascadesInChain + hist.length ∧
        (∀ h ∈ hist, h ≠ []) ∧ e1.config = e.config ∧
        e1.spinning = e.spinning ∧ e1.bonuses = e.bonuses := by
  intro fuel
  induction fuel with
  | zero =>
    intro e w e1 fw hist hcl
    cases w with
    | nil =>
      simp only [cascadeLoop, Option.some.injEq, Prod.mk.injEq] at hcl
      obtain ⟨he, hf, hh⟩ := hcl
      subst he; subst hf; subst hh
      simp
    | cons wh wt => simp [cascadeLoop] at hcl
  | succ fuel ih =>
    intro e w e1 fw hist hcl
    cases w with
    | nil =>
      simp only [cascadeLoop, Option.some.injEq, Prod.mk.injEq] at hcl
      obtain ⟨he, hf, hh⟩ := hcl
      subst he; subst hf; subst hh
      simp
    | cons wh wt =>
      simp only [cascadeLoop] at hcl
      split at hcl
      · exact absurd hcl (by simp)
      · rename_i e5 finalWins hist5 heq
        simp only [Option.some.injEq, Prod.mk.injEq] at hcl
        obtain ⟨he, hf, hh⟩ := hcl
        subst he; subst hf; subst hh
        obtain ⟨h1, h2, h3, h4, h5, h6⟩ := ih _ _ _ _ _ heq
        refine ⟨h1, ?_, ?_, h4, h5, h6⟩
        · simp only [List.length_cons]
          rw [h2]
          simp [fillTopR]
          omega
        · intro h hh
          rcases List.mem_cons.mp hh with hh | hh
          · subst hh; simp
          · exact h3 h hh

/-- A freshly allocated empty grid has the requested dimensions. -/
theorem makeEmptyGrid_wf (size : GridSize) : gridWF size (makeEmptyGrid size) := by
  constructor
  · simp [makeEmptyGrid]
  · intro col hcol
    have := List.eq_of_mem_replicate hcol
    rw [this]
    simp

/-- The cascade loop keeps the grid well-formed and, because every pass
ends with a refill, full. -/
theorem cascadeLoop_atRest :
    ∀ (fuel : Nat) (e : SlotEngine) (w : List Win) (e1 : SlotEngine)
      (fw : List Win) (hist : List (List Win)),
      cascadeLoop fuel e w = some (e1, fw, hist) →
      gridWF e.config.grid e.grid → gridFull e.grid →
      gridWF e1.config.grid e1.grid ∧ gridFull e1.grid := by
  intro fuel
  induction fuel with
  | zero =>
    intro e w e1 fw hist hcl hwf hfull
    cases w with
    | nil =>
      simp only [cascadeLoop, Option.some.injEq, Prod.mk.injEq] at hcl
      obtain ⟨he, _, _⟩ := hcl
      subst he
      exact ⟨hwf, hfull⟩
    | cons wh wt => simp [cascadeLoop] at hcl
  | succ fuel ih =>
    intro e w e1 fw hist hcl hwf hfull
    cases w with
    | nil =>
      simp only [cascadeLoop, Option.some.injEq, Prod.mk.injEq] at hcl
      obtain ⟨he, _, _⟩ := hcl
      subst he
      exact ⟨hwf, hfull⟩
    | cons wh wt =>
      simp only [cascadeLoop] at hcl
      split at hcl
      · exact absurd hcl (by simp)
      · rename_i e5 finalWins hist5 heq
        simp only [Option.some.injEq, Prod.mk.injEq] at hcl
        obtain ⟨he, _, _⟩ := hcl
        subst he
        set G1 := deleteWins e.grid (wh :: wt) with hG1
        set G2 := applyGravity e.config.grid.rows G1 with hG2
        have hshape : ((fillTopGrid e.config.symbolWeights e.rng G2).1).map List.length
            = e.grid.map List.length := by
          rw [fillTopGrid_shape, hG2, applyGravity_map_length, hG1,
            deleteWins_map_length]
        have hwf4 : gridWF e.config.grid (fillTopGrid e.config.symbolWeights e.rng G2).1 :=
          gridWF_of_map_length_eq hshape hwf
        have hfull4 : gridFull (fillTopGrid e.config.symbolWeights e.rng G2).1 :=
          fillTopGrid_full _ _ _
        exact ih _ _ _ _ _ heq hwf4 hfull4

/-- Congruence for `flatMap` under pointwise equality on members. -/
theorem flatMap_congr_mem {α β : Type _} {l : List α} {f g : α → List β}
    (h : ∀ a ∈ l, f a = g a) : l.flatMap f = l.flatMap g := by
  induction l with
  | nil => rfl
  | cons a t ih =>
    simp only [List.flatMap_cons]
    rw [h a (by simp), ih (fun b hb => h b (by simp [hb]))]

/-- A `filterMap` that never drops is a `map`. -/
theorem filterMap_eq_map_of_forall {α β : Type _} {f : α → Option β} {g : α → β} :
    ∀ (l : List α), (∀ a ∈ l, f a = some (g a)) → l.filterMap f = l.map g := by
  intro l
  induction l with
  | nil => intro _; rfl
  | cons a t ih =>
    intro h
    rw [List.filterMap_cons, h a (by simp), List.map_cons,
      ih (fun b hb => h b (by simp [hb]))]

/-- On a row with no empty cells the row extraction reads every column. -/
theorem rowCells_eq_full (g : Grid) (cols r : Nat)
    (h : ∀ c < cols, cellAt g c r ≠ none) :
    rowCells g cols r = rowSymsFull g cols r := by
  unfold rowCells rowSymsFull
  apply filterMap_eq_map_of_forall
  intro c hc
  have hc' : c < cols := List.mem_range.mp hc
  cases hcell : cellAt g c r with
  | none => exact absurd hcell (h c hc')
  | some s => rfl

/-- C9: every value the seeded generator emits is exactly a 32-bit
unsigned integer divided by `2^32`, hence lies in `[0, 1)`; the state used
for seed 0 coincides with the one for the fixed constant 123456789, so the
seed actually used is never 0. -/
theorem seededRng_range_and_seed :
    (∀ x : Nat, x < 4294967296 →
      rngNext x < 4294967296 ∧
        (rngStep x).1 = (rngNext x : Rat) / 4294967296 ∧
        0 ≤ (rngStep x).1 ∧ (rngStep x).1 < 1) ∧
    rngInit 0 = rngInit 123456789 ∧ (∀ seed : Nat, rngInit seed ≠ 0) := by
  refine ⟨?_, rfl, ?_⟩
  · intro x hx
    obtain ⟨h0, h1⟩ := rngStep_mem_Ico x hx
    exact ⟨rngNext_lt x hx, rfl, h0, h1⟩
  · intro seed
    unfold rngInit
    split
    · norm_num
    · assumption

/-- Witness for C9 at the concrete state 5. -/
theorem seededRng_range_and_seed_w :
    (5 : Nat) < 4294967296 ∧ rngNext 5 < 4294967296 ∧
      0 ≤ (rngStep 5).1 ∧ (rngStep 5).1 < 1 :=
  ⟨by decide, (seededRng_range_and_seed.1 5 (by decide)).1,
    (seededRng_range_and_seed.1 5 (by decide)).2.2.1,
    (seededRng_range_and_seed.1 5 (by decide)).2.2.2⟩

/-- C6: on a grid whose columns have the configured number of rows,
`applyGravity` acts on each column independently as a stable compaction:
all empties move to the top, the symbols keep their order at the bottom,
and the symbol multiset of each column is untouched. -/
theorem applyGravity_stable_compaction (rows : Nat) (g : Grid)
    (h : ∀ col ∈ g, col.length = rows) :
    applyGravity rows g = g.map fun col =>
      List.replicate (rows - (col.filterMap id).length) (none : Cell) ++
        (col.filterMap id).map some := by
  unfold applyGravity
  apply List.map_congr_left
  intro col hcol
  rw [← h col hcol]
  exact applyGravityCol_eq col

/-- Witness for C6: the spec's example column `[bear, empty, wolf, empty,
elk]` compacts to `[empty, empty, bear, wolf, elk]`. -/
theorem applyGravity_stable_compaction_w :
    (∀ col ∈ [colEx], col.length = 5) ∧
      applyGravity 5 [colEx] =
        [[none, none, some .sym_bear, some .sym_wolf, some .sym_elk]] :=
  ⟨by decide,
    (applyGravity_stable_compaction 5 [colEx] (by decide)).trans (by decide)⟩

/-- C5: on a grid with no empty cell, `evaluateWins` returns exactly one
win per maximal horizontal run of equal symbols of length ≥ 3, with payout
`length × 10` and that run's cells, ordered by row and then by leftmost
column. -/
theorem evaluateWins_full_grid_runs (cols rows : Nat) (g : Grid)
    (hfull : ∀ r < rows, ∀ c < cols, cellAt g c r ≠ none) :
    evaluateWins cols rows g =
      (List.range rows).flatMap fun r => rowRunWins r (rowSymsFull g cols r) := by
  rw [evaluateWins_eq_winsByRuns]
  unfold winsByRuns
  apply flatMap_congr_mem
  intro r hr
  rw [rowCells_eq_full g cols r (hfull r (List.mem_range.mp hr))]

/-- Witness for C5: the spec's example row `[bear, bear, bear, wolf, elk]`
is full and yields exactly the single win over columns 0–2 with payout 30. -/
theorem evaluateWins_full_grid_runs_w :
    (∀ r < 1, ∀ c < 5, cellAt gRow c r ≠ none) ∧
      evaluateWins 5 1 gRow = [⟨[⟨0, 0⟩, ⟨1, 0⟩, ⟨2, 0⟩], 30⟩] :=
  ⟨by decide,
    (evaluateWins_full_grid_runs 5 1 gRow (by decide)).trans (by decide)⟩

/-- Counterexample to C2 as stated: on the row `[bear, empty, bear,
bear]`, the empty cell does not terminate the run — `evaluateWins` returns
one win whose cells sit at columns 0, 2 and 3, which are not consecutive. -/
theorem evaluateWins_empty_breaks_run_counterex :
    evaluateWins 4 1 gHole = [⟨[⟨0, 0⟩, ⟨2, 0⟩, ⟨3, 0⟩], 30⟩] ∧
      ¬ ∀ w ∈ evaluateWins 4 1 gHole,
          w.cells.Chain' fun a b => b.c = a.c + 1 := by
  constructor
  · decide
  · intro hall
    have hmem : (⟨[⟨0, 0⟩, ⟨2, 0⟩, ⟨3, 0⟩], 30⟩ : Win) ∈ evaluateWins 4 1 gHole := by
      decide
    have hchain := hall _ hmem
    simp [List.chain'_cons] at hchain

/-- C2 amended: an empty cell is skipped without terminating the current
run (so equal symbols on both sides of an empty cell merge into one run);
consequently every returned win has ≥ 3 cells in one single row at
strictly increasing — but not necessarily consecutive — column indices,
all holding the same non-empty symbol. -/
theorem evaluateWins_wins_structure (cols rows : Nat) (g : Grid) (w : Win)
    (hw : w ∈ evaluateWins cols rows g) :
    3 ≤ w.cells.length ∧
      w.cells.Pairwise (fun a b => a.c < b.c) ∧
      ∃ r < rows, ∃ s : SymbolId,
        ∀ p ∈ w.cells, p.r = r ∧ p.c < cols ∧ cellAt g p.c p.r = some s := by
  rw [evaluateWins_eq_winsByRuns] at hw
  unfold winsByRuns at hw
  obtain ⟨r, hr, hw⟩ := List.mem_flatMap.mp hw
  have hrlt : r < rows := List.mem_range.mp hr
  unfold rowRunWins at hw
  obtain ⟨run, hrun, hweq⟩ := List.mem_map.mp hw
  have hrunmem : run ∈ runs (rowCells g cols r) := List.mem_of_mem_filter hrun
  have h3 : 3 ≤ run.length := by
    have := List.of_mem_filter hrun
    simpa using this
  obtain ⟨hne, hsub, hsym⟩ := runs_props _ run hrunmem
  subst hweq
  refine ⟨by simpa using h3, ?_, ?_⟩
  · rw [List.pairwise_map]
    exact (rowCells_pairwise g cols r).sublist hsub
  · refine ⟨r, hrlt, ?_⟩
    obtain ⟨p0, hp0⟩ := List.exists_mem_of_ne_nil run hne
    refine ⟨p0.2, ?_⟩
    intro p hp
    obtain ⟨q, hq, hqeq⟩ := List.mem_map.mp hp
    obtain ⟨hcols, hcell⟩ := rowCells_mem (hsub.subset hq)
    subst hqeq
    refine ⟨rfl, hcols, ?_⟩
    rw [hcell]
    rw [hsym q hq p0 hp0]

/-- Witness for the amended C2, instantiated at the column-skipping win of
the counterexample grid. -/
theorem evaluateWins_wins_structure_w :
    (⟨[⟨0, 0⟩, ⟨2, 0⟩, ⟨3, 0⟩], 30⟩ : Win) ∈ evaluateWins 4 1 gHole ∧
      (3 ≤ ([⟨0, 0⟩, ⟨2, 0⟩, ⟨3, 0⟩] : List Pos).length ∧
        ([⟨0, 0⟩, ⟨2, 0⟩, ⟨3, 0⟩] : List Pos).Pairwise (fun a b => a.c < b.c) ∧
        ∃ r < 1, ∃ s : SymbolId,
          ∀ p ∈ ([⟨0, 0⟩, ⟨2, 0⟩, ⟨3, 0⟩] : List Pos),
            p.r = r ∧ p.c < 4 ∧ cellAt gHole p.c p.r = some s) :=
  ⟨by decide,
    evaluateWins_wins_structure 4 1 gHole ⟨[⟨0, 0⟩, ⟨2, 0⟩, ⟨3, 0⟩], 30⟩
      (by decide)⟩

/-- C4: a `spin` call that hits the re-entrancy guard returns
`{wins: [], cascades: 0}` and changes nothing at all — the engine (grid,
RNG state, config, bonus list, cascade counter) is returned untouched and
no hook is invoked. -/
theorem spin_reentrancy_noop (fuel : Nat) (e : SlotEngine)
    (h : e.spinning = true) :
    spin fuel e = some (e, ⟨[], 0⟩, [], []) := by
  unfold spin
  rw [if_pos (by rw [h])]

/-- Witness for C4 on a concrete busy engine. -/
theorem spin_reentrancy_noop_w :
    eBusy.spinning = true ∧ spin 3 eBusy = some (eBusy, ⟨[], 0⟩, [], []) :=
  ⟨by decide, spin_reentrancy_noop 3 eBusy (by decide)⟩

/-- C10: a completed regular-style spin never resets or modifies the
`cascadesInChain` counter, and reports the counter's leftover value as its
`cascades` field. -/
theorem spin_regular_keeps_cascades (fuel : Nat) (e : SlotEngine)
    (t : SlotEngine × SpinResult × List HookCall × List (List Win))
    (hsp : e.spinning = false) (hstyle : e.config.spinStyle = SpinStyle.regular)
    (h : spin fuel e = some t) :
    t.2.1.cascades = e.cascadesInChain ∧
      t.1.cascadesInChain = e.cascadesInChain := by
  unfold spin at h
  split at h
  · rename_i hg
    rw [hsp] at hg
    exact absurd hg (by simp)
  · simp only [] at h
    split at h
    · rename_i hc
      simp [fillAllRandom, hstyle] at hc
    · have hx := Option.some.inj h
      subst hx
      exact ⟨rfl, rfl⟩

/-- Witness for C10: a regular spin on an engine with leftover counter 7
reports `cascades = 7`. -/
theorem spin_regular_keeps_cascades_w :
    ((spin 0 eReg).map fun t => t.2.1.cascades) = some 7 := by
  cases hspin : spin 0 eReg with
  | none => exact absurd hspin (by decide)
  | some t =>
    have h1 := (spin_regular_keeps_cascades 0 eReg t (by decide) (by decide)
      hspin).1
    rw [Option.map_some', h1]
    rfl

/-- Counterexample to C3 as stated: on a concrete engine with one bonus,
the spin-end hook is invoked with the `spinning` flag already `false`, and
never with it `true` — the engine is set back to idle before the spin-end
hooks run, not after. -/
theorem spin_end_hook_flag_counterex :
    HookCall.onSpinEnd 0 false ∈ traceOf (spin 1 eX) ∧
      HookCall.onSpinEnd 0 true ∉ traceOf (spin 1 eX) := by
  constructor
  · decide
  · decide

/-- C3 amended: every spin-end hook is invoked strictly after the engine
state is set back to idle — the `spinning` flag is already `false` while
each spin-end hook runs (and still `true` during each spin-start hook). -/
theorem spin_end_hooks_after_idle (fuel : Nat) (e : SlotEngine)
    (t : SlotEngine × SpinResult × List HookCall × List (List Win))
    (h : spin fuel e = some t) :
    (∀ b f, HookCall.onSpinEnd b f ∈ t.2.2.1 → f = false) ∧
      (∀ b f, HookCall.onSpinStart b f ∈ t.2.2.1 → f = true) := by
  unfold spin at h
  split at h
  · have hx := Option.some.inj h
    subst hx
    constructor
    · intro b f hm
      simp at hm
    · intro b f hm
      simp at hm
  · simp only [] at h
    split at h
    · split at h
      · exact absurd h (by simp)
      · rename_i e4 fw hist heq
        have hx := Option.some.inj h
        subst hx
        constructor
        · intro b f hm
          simp only [List.mem_append, List.mem_map] at hm
          rcases hm with ⟨b0, _, heq0⟩ | ⟨b0, _, heq0⟩
          · exact absurd heq0 (by simp)
          · have := heq0
            injection this with h1 h2
            simpa using h2.symm
        · intro b f hm
          simp only [List.mem_append, List.mem_map] at hm
          rcases hm with ⟨b0, _, heq0⟩ | ⟨b0, _, heq0⟩
          · injection heq0 with h1 h2
            simpa using h2.symm
          · exact absurd heq0 (by simp)
    · have hx := Option.some.inj h
      subst hx
      constructor
      · intro b f hm
        simp only [List.mem_append, List.mem_map] at hm
        rcases hm with ⟨b0, _, heq0⟩ | ⟨b0, _, heq0⟩
        · exact absurd heq0 (by simp)
        · injection heq0 with h1 h2
          simpa using h2.symm
      · intro b f hm
        simp only [List.mem_append, List.mem_map] at hm
        rcases hm with ⟨b0, _, heq0⟩ | ⟨b0, _, heq0⟩
        · injection heq0 with h1 h2
          simpa using h2.symm
        · exact absurd heq0 (by simp)

/-- Witness for the amended C3: on the concrete engine no spin-end hook
ever sees the flag `true`. -/
theorem spin_end_hooks_after_idle_w :
    HookCall.onSpinEnd 0 true ∉ traceOf (spin 1 eX) := by
  intro hmem
  cases hspin : spin 1 eX with
  | none =>
    rw [hspin] at hmem
    simp [traceOf] at hmem
  | some t =>
    rw [hspin] at hmem
    simp only [traceOf, Option.map_some', Option.getD_some] at hmem
    have hfl := (spin_end_hooks_after_idle 1 eX t hspin).1 0 true hmem
    exact absurd hfl (by decide)

/-- C1: a cascading spin that passes the guard and terminates returns as
`wins` the final evaluation pass's list — the one that found no wins — so
the returned list is always empty, while `cascades` counts exactly the
completed delete–gravity–refill passes (each consumed a non-empty win
list). -/
theorem spin_cascading_final_wins (fuel : Nat) (e : SlotEngine)
    (t : SlotEngine × SpinResult × List HookCall × List (List Win))
    (hsp : e.spinning = false)
    (hstyle : e.config.spinStyle = SpinStyle.cascading)
    (h : spin fuel e = some t) :
    t.2.1.wins = [] ∧ t.2.1.cascades = t.2.2.2.length ∧
      ∀ wl ∈ t.2.2.2, wl ≠ [] := by
  unfold spin at h
  split at h
  · rename_i hg
    rw [hsp] at hg
    exact absurd hg (by simp)
  · simp only [] at h
    split at h
    · split at h
      · exact absurd h (by simp)
      · rename_i e4 fw hist heq
        have hx := Option.some.inj h
        subst hx
        obtain ⟨h1, h2, h3, _, _, _⟩ := cascadeLoop_spec _ _ _ _ _ _ heq
        refine ⟨h1, ?_, h3⟩
        simpa using h2
    · rename_i hc
      exact absurd (by simp [fillAllRandom, hstyle]) hc

/-- Witness for C1 on the deterministic 1×1 cascading engine. -/
theorem spin_cascading_final_wins_w :
    eC.spinning = false ∧ eC.config.spinStyle = SpinStyle.cascading ∧
      ((spin 1 eC).map fun t => t.2.1.wins) = some [] := by
  refine ⟨by decide, by decide, ?_⟩
  cases hspin : spin 1 eC with
  | none => exact absurd hspin (by decide)
  | some t =>
    have h1 := (spin_cascading_final_wins 1 eC t (by decide) (by decide)
      hspin).1
    rw [Option.map_some', h1]

/-- C7: at rest the grid always matches the configured dimensions and
holds a symbol in every cell — after construction, after every `setGrid`,
and after every completed `spin`; the non-empty weight-table hypotheses
mark the configurations on which the source's symbol picker can run at
all. -/
theorem grid_at_rest_full :
    (∀ (entropy : Nat) (cfg : PartialEngineConfig),
      cfg.symbolWeights.getD DEFAULT_WEIGHTS ≠ [] →
        atRest (mkEngine entropy cfg)) ∧
    (∀ (size : GridSize) (e : SlotEngine),
      e.config.symbolWeights ≠ [] → atRest (setGrid size e)) ∧
    (∀ (fuel : Nat) (e : SlotEngine)
      (t : SlotEngine × SpinResult × List HookCall × List (List Win)),
      e.config.symbolWeights ≠ [] → atRest e → spin fuel e = some t →
        atRest t.1) := by
  refine ⟨?_, ?_, ?_⟩
  · intro entropy cfg _
    constructor
    · exact gridWF_of_map_length_eq (fillAllGrid_shape _ _ _)
        (makeEmptyGrid_wf _)
    · exact fillAllGrid_full _ _ _
  · intro size e _
    constructor
    · exact gridWF_of_map_length_eq (fillAllGrid_shape _ _ _)
        (makeEmptyGrid_wf _)
    · exact fillAllGrid_full _ _ _
  · intro fuel e t _ hrest h
    unfold spin at h
    split at h
    · have hx := Option.some.inj h
      subst hx
      exact hrest
    · simp only [] at h
      split at h
      · split at h
        · exact absurd h (by simp)
        · rename_i e4 fw hist heq
          have hx := Option.some.inj h
          subst hx
          have hwf2 : gridWF e.config.grid
              (fillAllGrid e.config.symbolWeights e.rng e.grid).1 :=
            gridWF_of_map_length_eq (fillAllGrid_shape _ _ _) hrest.1
          have hfull2 : gridFull (fillAllGrid e.config.symbolWeights e.rng e.grid).1 :=
            fillAllGrid_full _ _ _
          have hres := cascadeLoop_atRest _ _ _ _ _ _ heq hwf2 hfull2
          obtain ⟨_, _, _, hcfg, _, _⟩ := cascadeLoop_spec _ _ _ _ _ _ heq
          constructor
          · have := hres.1
            rw [hcfg] at this ⊢
            exact this
          · exact hres.2
      · have hx := Option.some.inj h
        subst hx
        constructor
        · exact gridWF_of_map_length_eq (fillAllGrid_shape _ _ _) hrest.1
        · exact fillAllGrid_full _ _ _

/-- Witness for C7: construction, a resize, and a completed spin on
concrete engines all leave a full, well-dimensioned grid. -/
theorem grid_at_rest_full_w :
    atRest (mkEngine 0 cfgC) ∧ atRest (setGrid ⟨2, 2⟩ eC) ∧
      (spin 1 eC).elim False (fun t => atRest t.1) := by
  refine ⟨grid_at_rest_full.1 0 cfgC (by decide),
    grid_at_rest_full.2.1 ⟨2, 2⟩ eC (by decide), ?_⟩
  cases hspin : spin 1 eC with
  | none => exact absurd hspin (by decide)
  | some t =>
    have := grid_at_rest_full.2.2 1 eC t (by decide) (by decide) hspin
    simpa using this

/-- C8: two engines constructed from the same partial config carrying a
fixed non-zero seed behave identically under any operation sequence —
whatever entropy would have been drawn for a missing seed is irrelevant,
so grids and win lists coincide at every step. -/
theorem engine_deterministic_from_seed (cfg : PartialEngineConfig) (s : Nat)
    (hseed : cfg.rngSeed = some s) (_hs : s ≠ 0)
    (entropy1 entropy2 : Nat) (ops : List Op) :
    runOps (mkEngine entropy1 cfg) ops = runOps (mkEngine entropy2 cfg) ops := by
  have h : mkEngine entropy1 cfg = mkEngine entropy2 cfg := by
    unfold mkEngine
    rw [hseed]
    simp only [Option.getD_some]
  rw [h]

/-- Witness for C8: the same three operations on two engines built with
different entropies but the same explicit seed produce the same outputs. -/
theorem engine_deterministic_from_seed_w :
    runOps (mkEngine 0 cfgC) [Op.spin 1, Op.setSpinStyle SpinStyle.regular, Op.spin 1] =
      runOps (mkEngine 99 cfgC) [Op.spin 1, Op.setSpinStyle SpinStyle.regular, Op.spin 1] :=
  engine_deterministic_from_seed cfgC 1 rfl (by decide) 0 99 _
